import Mathlib

/-!
# Verification of the OrderedSongList module (SENG265/A3/list.c)

The C module is a singly-linked list of `Song` records.  We embed it at two
levels, both faithful to the pointer code:

* **Chain view** (for `add_inorder`): the module's own invariant is that a
  list is a simple chain, so a list value is the sequence of songs read from
  head to tail.  Each `while` loop of `add_inorder` becomes a structurally
  recursive scan; re-linking `prev->next = new; new->next = cur` becomes
  re-assembling the chain around the insertion point.  The head-equality
  loop of the C code tests `cur->song` without first checking
  `cur != NULL`; running off the end of the chain there is a null
  dereference, which the embedding reports as `none`.

* **Arena view** (for `new_node`, `add_front`, `add_end`, `peek_front`,
  `remove_front`, `apply`): the heap is an arena of nodes addressed by
  index; a list is an optional head address (NULL = `none`).  Stateful
  functions return the updated heap; walking loops take explicit fuel.

`strcmp` is modelled character-wise on the strings' character lists with
result sign in {-1, 0, 1}; only the sign of C's `strcmp` is ever used.
-/

/-- Modelled from the spec: the `Song` record's own header is not part of
this module's sources; the spec describes it as a record with an `artist`
text field, a `song` title text field and a numeric `comparator` field,
which is exactly the set of fields `list.c` reads. -/
structure Song where
  artist : String
  song : String
  comparator : Int
deriving Repr, DecidableEq

/-- Sign of C `strcmp` on character lists: negative when the first string
is lexicographically smaller, zero when equal, positive when larger. -/
def strcmpAux : List Char → List Char → Int
  | [], [] => 0
  | [], _ :: _ => -1
  | _ :: _, [] => 1
  | a :: as, b :: bs =>
    if a < b then -1
    else if b < a then 1
    else strcmpAux as bs

/-- C `strcmp`, up to sign (the module only tests `< 0` and `> 0`). -/
def strcmp (a b : String) : Int :=
  strcmpAux a.data b.data

/-! ## Chain view of `add_inorder` -/

/-- The unguarded scan of the head-equal-comparator branch:

    while (new->song->comparator == cur->song->comparator
           && strcmp(new->song->song, cur->song->song) < 0) {
        prev = prev->next;
        cur = cur->next;
    }
    prev->next = new;
    new->next = cur;

The loop condition dereferences `cur` without a NULL test, so reaching the
end of the chain (`[]`) is a null dereference, modelled by `none`. -/
def scanEqHead (new : Song) : List Song → Option (List Song)
  | [] => none
  | c :: rest =>
    if new.comparator = c.comparator ∧ strcmp new.song c.song < 0 then
      (scanEqHead new rest).map (fun l => c :: l)
    else
      some (new :: c :: rest)

/-- The first guarded scan of the general branch:

    while (cur != NULL && new->song->comparator < cur->song->comparator) {
        cur = cur->next;
        prev = prev->next;
    }

Returns the nodes stepped over and the remaining chain from `cur`. -/
def scanGt (new : Song) : List Song → List Song × List Song
  | [] => ([], [])
  | c :: rest =>
    if new.comparator < c.comparator then
      let p := scanGt new rest
      (c :: p.1, p.2)
    else
      ([], c :: rest)

/-- The second guarded scan of the general branch:

    while (cur != NULL && new->song->comparator == cur->song->comparator
           && strcmp(new->song->song, cur->song->song) < 0) {
        prev = prev->next;
        cur = cur->next;
    }

Returns the nodes stepped over and the remaining chain from `cur`. -/
def scanEqTitle (new : Song) : List Song → List Song × List Song
  | [] => ([], [])
  | c :: rest =>
    if new.comparator = c.comparator ∧ strcmp new.song c.song < 0 then
      let p := scanEqTitle new rest
      (c :: p.1, p.2)
    else
      ([], c :: rest)

/-- Function `add_inorder` from `list.c`, on the chain of song values.  The branch
structure mirrors the C function line by line: empty list; single-element
list (comparator comparison, then `strcmp` on the *artist* fields);
general list with head comparisons followed by the scans above.  `none`
marks the null dereference of the unguarded head-equality loop.  The new
node is a fresh single node (its `next` is NULL on entry), as produced by
`new_node`. -/
def add_inorder (list : List Song) (new : Song) : Option (List Song) :=
  match list with
  | [] => some [new]
  | [l] =>
    if l.comparator > new.comparator then
      some [l, new]
    else if l.comparator < new.comparator then
      some [new, l]
    else
      if strcmp l.artist new.artist < 0 then
        some [l, new]
      else
        some [new, l]
  | prev :: c :: rest =>
    if new.comparator > prev.comparator then
      some (new :: prev :: c :: rest)
    else if new.comparator = prev.comparator then
      if strcmp new.song prev.song > 0 then
        some (new :: prev :: c :: rest)
      else
        (scanEqHead new (c :: rest)).map (fun l => prev :: l)
    else
      let p1 := scanGt new (c :: rest)
      let p2 := scanEqTitle new p1.2
      some (prev :: (p1.1 ++ p2.1 ++ new :: p2.2))

/-- A sequence of `add_inorder` insertions starting from the empty list;
`none` as soon as one insertion hits the null dereference. -/
def buildList (songs : List Song) : Option (List Song) :=
  songs.foldlM add_inorder []

/-- Chains sorted by `comparator` descending (non-increasing head to tail). -/
def sortedComparatorDesc (l : List Song) : Prop :=
  l.Pairwise (fun a b => b.comparator ≤ a.comparator)

/-- The ordering the specification claims: `comparator` descending, ties
broken by title ascending. -/
def specOrderedAsc (l : List Song) : Prop :=
  l.Pairwise (fun a b =>
    b.comparator < a.comparator ∨
      (b.comparator = a.comparator ∧ strcmp a.song b.song ≤ 0))

/-- Titles non-increasing from head to tail. -/
def sortedTitleDesc (l : List Song) : Prop :=
  l.Pairwise (fun a b => strcmp b.song a.song ≤ 0)

instance (l : List Song) : Decidable (sortedComparatorDesc l) := by
  unfold sortedComparatorDesc; infer_instance

instance (l : List Song) : Decidable (specOrderedAsc l) := by
  unfold specOrderedAsc; infer_instance

instance (l : List Song) : Decidable (sortedTitleDesc l) := by
  unfold sortedTitleDesc; infer_instance

/-! ## Arena view of the pointer-level operations

A `node_t` holds its song and the address of the next node (`none` = NULL).
The heap is the arena of allocated nodes; a node's address is its index.
A list argument or result is `Option Nat`: `none` is the NULL (empty) list.
Functions that write through a pointer return the updated heap, and return
`none` (undefined behaviour) if the written address is not allocated.
Loops that walk `next` links take explicit fuel, an artifact of totality
only: on an actual chain any fuel past the chain length behaves alike. -/

structure node_t where
  song : Song
  next : Option Nat
deriving Repr, DecidableEq

/-- The arena of allocated nodes, addressed by index. -/
abbrev Heap : Type := List node_t

/-- Read the node at address `a` (`none`: dereferencing an invalid pointer). -/
def getNode (h : Heap) (a : Nat) : Option node_t :=
  List.get? h a

/-- Write the `next` field of the node at address `a`. -/
def setNext (h : Heap) (a : Nat) (nx : Option Nat) : Option Heap :=
  match List.get? h a with
  | none => none
  | some nd => some (List.set h a { nd with next := nx })

/-- Function `new_node` from `list.c`: allocate a fresh node for `val` with NULL
`next` (the `assert(val != NULL)` and `emalloc` failure-aborts cannot be
reached in the embedding, where `Song` is a value and allocation extends
the arena).  Returns the new heap and the fresh address. -/
def new_node (h : Heap) (val : Song) : Heap × Nat :=
  (h ++ [{ song := val, next := none }], h.length)

/-- Function `add_front` from `list.c`: `new->next = list; return new;`. -/
def add_front (h : Heap) (list : Option Nat) (new : Nat) : Option (Heap × Nat) :=
  match setNext h new list with
  | none => none
  | some h1 => some (h1, new)

/-- The walk of `add_end`'s `for` loop:
`for (curr = list; curr->next != NULL; curr = curr->next);` —
returns the address of the last node of the chain starting at `a`. -/
def lastNode (h : Heap) (a : Nat) : Nat → Option Nat
  | 0 => none
  | fuel + 1 =>
    match getNode h a with
    | none => none
    | some nd =>
      match nd.next with
      | none => some a
      | some b => lastNode h b fuel

/-- Function `add_end` from `list.c`: empty list sets `new->next = NULL` and returns
`new`; otherwise walks to the last node, then `curr->next = new;
new->next = NULL; return list;`. -/
def add_end (h : Heap) (list : Option Nat) (new : Nat) (fuel : Nat) :
    Option (Heap × Nat) :=
  match list with
  | none =>
    match setNext h new none with
    | none => none
    | some h1 => some (h1, new)
  | some hd =>
    match lastNode h hd fuel with
    | none => none
    | some last =>
      match setNext h last (some new) with
      | none => none
      | some h1 =>
        match setNext h1 new none with
        | none => none
        | some h2 => some (h2, hd)

/-- Function `peek_front` from `list.c`: `return list;` — no read or write of the
heap at all, so the unchanged heap is returned alongside the head. -/
def peek_front (h : Heap) (list : Option Nat) : Heap × Option Nat :=
  (h, list)

/-- Function `remove_front` from `list.c`: NULL list yields NULL, otherwise
`return list->next;`.  No write happens, so the heap comes back unchanged;
the read of `list->next` is undefined (`none`) on an invalid address. -/
def remove_front (h : Heap) (list : Option Nat) : Option (Heap × Option Nat) :=
  match list with
  | none => some (h, none)
  | some a =>
    match getNode h a with
    | none => none
    | some nd => some (h, nd.next)

/-- Function `apply` from `list.c`: `for (; list != NULL; list = list->next)
fn(list, arg);`.  The visitor's effect on its `void *` context is modelled
by state passing: `fn` maps the visited node's address and the current
context to the next context. -/
def apply {α : Type} (h : Heap) (fn : Nat → α → α) :
    Option Nat → α → Nat → Option α
  | none, arg, _ => some arg
  | some _, _, 0 => none
  | some a, arg, fuel + 1 =>
    match getNode h a with
    | none => none
    | some nd => apply h fn nd.next (fn a arg) fuel

/-- The chain of node addresses reachable from a head pointer: the
traversal order of the list.  `none` when the walk dereferences an invalid
address or the fuel runs out (never the case on an actual chain). -/
def chainAddrs (h : Heap) : Option Nat → Nat → Option (List Nat)
  | none, _ => some []
  | some _, 0 => none
  | some a, fuel + 1 =>
    match getNode h a with
    | none => none
    | some nd =>
      match chainAddrs h nd.next fuel with
      | none => none
      | some rest => some (a :: rest)

example : add_inorder [] ⟨"a", "T", 5⟩ = some [⟨"a", "T", 5⟩] := by decide

example :
    buildList [⟨"w", "T1", 5⟩, ⟨"x", "B", 3⟩, ⟨"y", "T3", 8⟩, ⟨"z", "A", 3⟩] =
      some [⟨"y", "T3", 8⟩, ⟨"w", "T1", 5⟩, ⟨"x", "B", 3⟩, ⟨"z", "A", 3⟩] := by
  decide

example :
    buildList [⟨"a", "C", 1⟩, ⟨"b", "B", 1⟩, ⟨"c", "A", 1⟩] = none := by decide

/-! ## Scan lemmas for `add_inorder` -/

theorem scanGt_spec (new : Song) (t : List Song) :
    t = (scanGt new t).1 ++ (scanGt new t).2 ∧
    (∀ x ∈ (scanGt new t).1, new.comparator < x.comparator) ∧
    (∀ y ∈ (scanGt new t).2.head?, ¬ new.comparator < y.comparator) := by
  induction t with
  | nil => simp [scanGt]
  | cons c rest ih =>
    by_cases hc : new.comparator < c.comparator
    · simp only [scanGt, if_pos hc]
      refine ⟨?_, ?_, ih.2.2⟩
      · simpa using ih.1
      · intro x hx
        rcases List.mem_cons.1 hx with rfl | hx
        · exact hc
        · exact ih.2.1 x hx
    · simp [scanGt, if_neg hc]
      omega

theorem scanEqTitle_spec (new : Song) (t : List Song) :
    t = (scanEqTitle new t).1 ++ (scanEqTitle new t).2 ∧
    (∀ x ∈ (scanEqTitle new t).1,
      new.comparator = x.comparator ∧ strcmp new.song x.song < 0) ∧
    (∀ y ∈ (scanEqTitle new t).2.head?,
      ¬ (new.comparator = y.comparator ∧ strcmp new.song y.song < 0)) := by
  induction t with
  | nil => simp [scanEqTitle]
  | cons c rest ih =>
    by_cases hc : new.comparator = c.comparator ∧ strcmp new.song c.song < 0
    · simp only [scanEqTitle, if_pos hc]
      refine ⟨?_, ?_, ih.2.2⟩
      · simpa using ih.1
      · intro x hx
        rcases List.mem_cons.1 hx with rfl | hx
        · exact hc
        · exact ih.2.1 x hx
    · simp only [scanEqTitle, if_neg hc]
      refine ⟨by simp, by simp, ?_⟩
      intro y hy
      simp only [List.head?_cons, Option.mem_def, Option.some.injEq] at hy
      subst hy
      exact hc

theorem scanEqHead_spec {new : Song} {t res : List Song}
    (h : scanEqHead new t = some res) :
    ∃ sk c r, t = sk ++ c :: r ∧ res = sk ++ new :: c :: r ∧
      (∀ x ∈ sk, new.comparator = x.comparator ∧ strcmp new.song x.song < 0) ∧
      ¬ (new.comparator = c.comparator ∧ strcmp new.song c.song < 0) := by
  induction t generalizing res with
  | nil => simp [scanEqHead] at h
  | cons c rest ih =>
    by_cases hc : new.comparator = c.comparator ∧ strcmp new.song c.song < 0
    · rw [scanEqHead, if_pos hc] at h
      rcases Option.map_eq_some'.1 h with ⟨res', hres', rfl⟩
      rcases ih hres' with ⟨sk, c', r, h1, h2, h3, h4⟩
      refine ⟨c :: sk, c', r, by simp [h1], by simp [h2], ?_, h4⟩
      intro x hx
      rcases List.mem_cons.1 hx with rfl | hx
      · exact hc
      · exact h3 x hx
    · rw [scanEqHead, if_neg hc] at h
      exact ⟨[], c, rest, rfl, by simpa using h.symm, by simp, hc⟩

theorem pairwise_insert_middle {R : Song → Song → Prop} {l₁ l₂ : List Song}
    {a : Song} (h : (l₁ ++ l₂).Pairwise R)
    (h1 : ∀ x ∈ l₁, R x a) (h2 : ∀ y ∈ l₂, R a y) :
    (l₁ ++ a :: l₂).Pairwise R := by
  rw [List.pairwise_append] at h
  rw [List.pairwise_append]
  refine ⟨h.1, List.pairwise_cons.2 ⟨h2, h.2.1⟩, ?_⟩
  intro x hx y hy
  rcases List.mem_cons.1 hy with rfl | hy
  · exact h1 x hx
  · exact h.2.2 x hx y hy

theorem add_inorder_sortedComp {l l' : List Song} {new : Song}
    (hs : sortedComparatorDesc l) (h : add_inorder l new = some l') :
    sortedComparatorDesc l' := by
  unfold sortedComparatorDesc at *
  match l with
  | [] =>
    simp [add_inorder] at h
    simp [← h]
  | [x] =>
    rcases lt_trichotomy x.comparator new.comparator with hx | hx | hx
    · rw [add_inorder, if_neg (by omega), if_pos hx] at h
      injection h with h
      subst h
      simp
      omega
    · rw [add_inorder, if_neg (by omega), if_neg (by omega)] at h
      by_cases ha : strcmp x.artist new.artist < 0
      · rw [if_pos ha] at h
        injection h with h
        subst h
        simp
        omega
      · rw [if_neg ha] at h
        injection h with h
        subst h
        simp
        omega
    · rw [add_inorder, if_pos hx] at h
      injection h with h
      subst h
      simp
      omega
  | prev :: c :: rest =>
    have hprev : ∀ y ∈ c :: rest, y.comparator ≤ prev.comparator :=
      (List.pairwise_cons.1 hs).1
    have htail : (c :: rest).Pairwise
        (fun a b => b.comparator ≤ a.comparator) :=
      (List.pairwise_cons.1 hs).2
    rcases lt_trichotomy prev.comparator new.comparator with hx | hx | hx
    · rw [add_inorder, if_pos hx] at h
      injection h with h
      subst h
      refine List.pairwise_cons.2 ⟨?_, hs⟩
      intro y hy
      rcases List.mem_cons.1 hy with rfl | hy
      · exact le_of_lt hx
      · exact le_trans (hprev y hy) (le_of_lt hx)
    · rw [add_inorder, if_neg (by omega), if_pos hx.symm] at h
      by_cases ht : strcmp new.song prev.song > 0
      · rw [if_pos ht] at h
        injection h with h
        subst h
        refine List.pairwise_cons.2 ⟨?_, hs⟩
        intro y hy
        rcases List.mem_cons.1 hy with rfl | hy
        · exact le_of_eq hx
        · exact le_trans (hprev y hy) (le_of_eq hx)
      · rw [if_neg ht] at h
        rcases Option.map_eq_some'.1 h with ⟨res, hres, rfl⟩
        rcases scanEqHead_spec hres with ⟨sk, c', r, h1, h2, h3, _⟩
        rw [h2]
        refine List.pairwise_cons.2 ⟨?_, ?_⟩
        · intro y hy
          rcases List.mem_append.1 hy with hy | hy
          · exact hprev y (h1 ▸ List.mem_append_left _ hy)
          · rcases List.mem_cons.1 hy with rfl | hy
            · exact le_of_eq hx.symm
            · exact hprev y (h1 ▸ List.mem_append_right _ hy)
        · refine pairwise_insert_middle (h1 ▸ htail) ?_ ?_
          · intro x hx'
            exact le_of_eq (h3 x hx').1
          · intro y hy
            exact le_trans (hprev y (h1 ▸ List.mem_append_right _ hy))
              (le_of_eq hx)
    · rw [add_inorder, if_neg (by omega), if_neg (by omega)] at h
      rcases scanGt_spec new (c :: rest) with ⟨e1, m1, hd1⟩
      rcases scanEqTitle_spec new (scanGt new (c :: rest)).2 with ⟨e2, m2, _⟩
      simp only [Option.some.injEq] at h
      rw [← h]
      have hr2 : ∀ y ∈ (scanEqTitle new (scanGt new (c :: rest)).2).2,
          y.comparator ≤ new.comparator := by
        intro y hy
        have hy1 : y ∈ (scanGt new (c :: rest)).2 :=
          e2 ▸ List.mem_append_right _ hy
        match hr1 : (scanGt new (c :: rest)).2 with
        | [] => rw [hr1] at hy1; simp at hy1
        | rh :: rt =>
          have hrh : ¬ new.comparator < rh.comparator := by
            apply hd1; rw [hr1]; rfl
          have hsubl : (rh :: rt).Pairwise
              (fun a b => b.comparator ≤ a.comparator) := by
            refine List.Pairwise.sublist ?_ htail
            rw [e1, hr1]
            exact List.sublist_append_right _ _
          rw [hr1] at hy1
          rcases List.mem_cons.1 hy1 with rfl | hy1
          · omega
          · have := (List.pairwise_cons.1 hsubl).1 y hy1
            omega
      refine List.pairwise_cons.2 ⟨?_, ?_⟩
      · intro y hy
        rcases List.mem_append.1 hy with hy | hy
        · refine hprev y ?_
          rw [e1, e2, ← List.append_assoc]
          exact List.mem_append_left _ hy
        · rcases List.mem_cons.1 hy with rfl | hy
          · exact le_of_lt hx
          · refine hprev y ?_
            rw [e1, e2, ← List.append_assoc]
            exact List.mem_append_right _ hy
      · refine pairwise_insert_middle ?_ ?_ hr2
        · rw [List.append_assoc, ← e2, ← e1]
          exact htail
        · intro x hx'
          rcases List.mem_append.1 hx' with hx' | hx'
          · exact le_of_lt (m1 x hx')
          · exact le_of_eq (m2 x hx').1

theorem buildList_aux_sortedComp :
    ∀ (songs acc l : List Song), sortedComparatorDesc acc →
      List.foldlM add_inorder acc songs = some l → sortedComparatorDesc l := by
  intro songs
  induction songs with
  | nil =>
    intro acc l hacc h
    rw [List.foldlM_nil] at h
    simp only [Option.pure_def, Option.some.injEq] at h
    exact h ▸ hacc
  | cons s rest ih =>
    intro acc l hacc h
    rw [List.foldlM_cons] at h
    cases hstep : add_inorder acc s with
    | none => rw [hstep] at h; simp at h
    | some acc' =>
      rw [hstep] at h
      simp only [Option.bind_eq_bind, Option.some_bind] at h
      exact ih acc' l (add_inorder_sortedComp hacc hstep) h

/-! ## Order facts about `strcmp` -/

theorem strcmpAux_flip : ∀ a b : List Char, strcmpAux b a = - strcmpAux a b := by
  intro a
  induction a with
  | nil =>
    intro b
    cases b <;> simp [strcmpAux]
  | cons x xs ih =>
    intro b
    cases b with
    | nil => simp [strcmpAux]
    | cons y ys =>
      rcases lt_trichotomy x y with hxy | hxy | hxy
      · rw [strcmpAux, if_neg (asymm hxy), if_pos hxy,
          strcmpAux, if_pos hxy]
        decide
      · subst hxy
        rw [strcmpAux, if_neg (lt_irrefl x), if_neg (lt_irrefl x),
          strcmpAux, if_neg (lt_irrefl x), if_neg (lt_irrefl x)]
        exact ih ys
      · rw [strcmpAux, if_pos hxy, strcmpAux, if_neg (asymm hxy), if_pos hxy]

theorem strcmpAux_le_trans : ∀ a b c : List Char,
    strcmpAux a b ≤ 0 → strcmpAux b c ≤ 0 → strcmpAux a c ≤ 0 := by
  intro a
  induction a with
  | nil =>
    intro b c _ _
    cases c <;> simp [strcmpAux]
  | cons x xs ih =>
    intro b c hab hbc
    cases b with
    | nil => rw [strcmpAux] at hab; omega
    | cons y ys =>
      cases c with
      | nil => rw [strcmpAux] at hbc; omega
      | cons z zs =>
        have hxy : ¬ y < x := by
          intro hlt
          rw [strcmpAux, if_neg (asymm hlt), if_pos hlt] at hab
          omega
        have hyz : ¬ z < y := by
          intro hlt
          rw [strcmpAux, if_neg (asymm hlt), if_pos hlt] at hbc
          omega
        rcases lt_trichotomy x z with hxz | hxz | hxz
        · rw [strcmpAux, if_pos hxz]
          omega
        · subst hxz
          have hyx : y = x := le_antisymm (not_lt.1 hyz) (not_lt.1 hxy)
          subst hyx
          rw [strcmpAux, if_neg (lt_irrefl y), if_neg (lt_irrefl y)] at hab hbc ⊢
          exact ih ys zs hab hbc
        · exact absurd hxz (not_lt.2 (le_trans (not_lt.1 hxy) (not_lt.1 hyz)))

theorem strcmp_flip (a b : String) : strcmp b a = - strcmp a b :=
  strcmpAux_flip a.data b.data

theorem strcmp_le_trans {a b c : String}
    (hab : strcmp a b ≤ 0) (hbc : strcmp b c ≤ 0) : strcmp a c ≤ 0 :=
  strcmpAux_le_trans a.data b.data c.data hab hbc

/-! ## Equal-comparator insertion keeps titles descending -/

/-- Claim C4 (amended).  The claim as frozen says an all-equal-comparator
insertion keeps titles ascending; the code does the opposite (see the
counterexample `c4_ascending_insert_fails`).  Amended: for a list of at
least two nodes whose comparators all equal the new node's, sorted with
titles descending, a completed `add_inorder` splits the chain at exactly
one point and inserts the new node there, and the resulting chain is
again sorted with titles descending (equal-comparator runs stay ordered
by title descending, never ascending; with fewer than two nodes the
artist branch decides instead, and the call can instead fail with the
null dereference when every remaining title exceeds the new title). -/
theorem add_inorder_equal_comp_titleDesc {l l' : List Song} {new : Song}
    (hlen : 2 ≤ l.length)
    (hcomp : ∀ x ∈ l, x.comparator = new.comparator)
    (hset : sortedTitleDesc l)
    (h : add_inorder l new = some l') :
    sortedTitleDesc l' ∧ ∃ l₁ l₂, l = l₁ ++ l₂ ∧ l' = l₁ ++ new :: l₂ := by
  unfold sortedTitleDesc at *
  match l with
  | [] => simp at hlen
  | [x] => simp at hlen
  | prev :: c :: rest =>
    have hpc : prev.comparator = new.comparator :=
      hcomp prev (List.mem_cons_self _ _)
    have hprev : ∀ y ∈ c :: rest, strcmp y.song prev.song ≤ 0 :=
      (List.pairwise_cons.1 hset).1
    have htail : (c :: rest).Pairwise (fun a b => strcmp b.song a.song ≤ 0) :=
      (List.pairwise_cons.1 hset).2
    rw [add_inorder, if_neg (by omega), if_pos hpc.symm] at h
    by_cases ht : strcmp new.song prev.song > 0
    · rw [if_pos ht] at h
      injection h with h
      subst h
      have hpn : strcmp prev.song new.song ≤ 0 := by
        rw [strcmp_flip]; omega
      refine ⟨List.pairwise_cons.2 ⟨?_, hset⟩, [], prev :: c :: rest, rfl, rfl⟩
      intro y hy
      rcases List.mem_cons.1 hy with rfl | hy
      · exact hpn
      · exact strcmp_le_trans (hprev y hy) hpn
    · rw [if_neg ht] at h
      rcases Option.map_eq_some'.1 h with ⟨res, hres, rfl⟩
      rcases scanEqHead_spec hres with ⟨sk, c', r, h1, h2, h3, h4⟩
      have hc' : strcmp c'.song new.song ≤ 0 := by
        have hmem : c' ∈ c :: rest := h1 ▸ List.mem_append_right _ (List.mem_cons_self _ _)
        have : ¬ strcmp new.song c'.song < 0 := fun hlt =>
          h4 ⟨(hcomp c' (List.mem_cons_of_mem _ hmem)).symm, hlt⟩
        rw [strcmp_flip]; omega
      have hnp : strcmp new.song prev.song ≤ 0 := by omega
      constructor
      · rw [h2]
        refine List.pairwise_cons.2 ⟨?_, ?_⟩
        · intro y hy
          rcases List.mem_append.1 hy with hy | hy
          · exact hprev y (h1 ▸ List.mem_append_left _ hy)
          · rcases List.mem_cons.1 hy with rfl | hy
            · exact hnp
            · exact hprev y (h1 ▸ List.mem_append_right _ hy)
        · refine pairwise_insert_middle (h1 ▸ htail) ?_ ?_
          · intro x hx
            exact le_of_lt (h3 x hx).2
          · intro y hy
            rcases List.mem_cons.1 hy with rfl | hy
            · exact hc'
            · have hsub : (c' :: r).Pairwise
                  (fun a b => strcmp b.song a.song ≤ 0) := by
                refine List.Pairwise.sublist ?_ htail
                rw [h1]
                exact List.sublist_append_right _ _
              exact strcmp_le_trans ((List.pairwise_cons.1 hsub).1 y hy) hc'
      · exact ⟨prev :: sk, c' :: r, by simp [h1], by simp [h2]⟩

/-! ## Heap lemmas -/

theorem getNode_lt_length {h : Heap} {a : Nat} {nd : node_t}
    (hget : getNode h a = some nd) : a < h.length := by
  by_contra hlen
  rw [getNode, List.get?_eq_none.2 (le_of_not_lt hlen)] at hget
  exact Option.noConfusion hget

theorem getNode_set_self {h : Heap} {a : Nat} {nd : node_t} (nd' : node_t)
    (hget : getNode h a = some nd) :
    getNode (List.set h a nd') a = some nd' := by
  rw [getNode, List.get?_eq_getElem?]
  exact List.getElem?_set_self (by simpa using getNode_lt_length hget)

theorem getNode_set_other {h : Heap} {a b : Nat} {nd' : node_t}
    (hne : a ≠ b) : getNode (List.set h a nd') b = getNode h b := by
  rw [getNode, getNode, List.get?_eq_getElem?, List.get?_eq_getElem?]
  exact List.getElem?_set_ne hne

theorem setNext_eq_some {h : Heap} {a : Nat} (nx : Option Nat) {nd : node_t}
    (hget : getNode h a = some nd) :
    setNext h a nx = some (List.set h a { nd with next := nx }) := by
  rw [setNext]
  rw [getNode] at hget
  rw [hget]


theorem chainAddrs_some_cons {h : Heap} {fuel p : Nat} {as : List Nat}
    (hch : chainAddrs h (some p) fuel = some as) : ∃ tl, as = p :: tl := by
  cases fuel with
  | zero => exact absurd hch (by simp [chainAddrs])
  | succ fuel =>
    rw [chainAddrs] at hch
    cases hget : getNode h p with
    | none => simp [hget] at hch
    | some nd =>
      cases hrest : chainAddrs h nd.next fuel with
      | none => simp [hget, hrest] at hch
      | some rest =>
        simp only [hget, hrest, Option.some.injEq] at hch
        exact ⟨rest, hch.symm⟩

/-- A walk over a chain is unchanged in a heap that agrees on the chain's
addresses. -/
theorem chainAddrs_frame {h h' : Heap} :
    ∀ (fuel : Nat) (list : Option Nat) (as : List Nat),
      chainAddrs h list fuel = some as →
      (∀ a ∈ as, getNode h' a = getNode h a) →
      chainAddrs h' list fuel = some as := by
  intro fuel
  induction fuel with
  | zero =>
    intro list as hch hag
    cases list with
    | none => exact hch
    | some a => exact absurd hch (by simp [chainAddrs])
  | succ fuel ih =>
    intro list as hch hag
    cases list with
    | none => exact hch
    | some a =>
      rw [chainAddrs] at hch
      cases hget : getNode h a with
      | none => simp [hget] at hch
      | some nd =>
        cases hrest : chainAddrs h nd.next fuel with
        | none => simp [hget, hrest] at hch
        | some rest =>
          simp only [hget, hrest, Option.some.injEq] at hch
          subst hch
          rw [chainAddrs, hag a (List.mem_cons_self _ _)]
          simp only [hget, ih nd.next rest hrest
            (fun b hb => hag b (List.mem_cons_of_mem _ hb))]

/-- The `for` loop of `add_end` finds exactly the last address of the
chain, and that node's `next` is NULL. -/
theorem lastNode_spec {h : Heap} :
    ∀ (fuel : Nat) (p : Nat) (as : List Nat),
      chainAddrs h (some p) fuel = some as →
      ∃ L ndL, lastNode h p fuel = some L ∧ as.getLast? = some L ∧
        getNode h L = some ndL ∧ ndL.next = none := by
  intro fuel
  induction fuel with
  | zero => intro p as hch; exact absurd hch (by simp [chainAddrs])
  | succ fuel ih =>
    intro p as hch
    rw [chainAddrs] at hch
    cases hget : getNode h p with
    | none => simp [hget] at hch
    | some nd =>
      cases hnx : nd.next with
      | none =>
        simp only [hget, hnx, chainAddrs, Option.some.injEq] at hch
        subst hch
        exact ⟨p, nd, by simp only [lastNode, hget, hnx], rfl, hget, hnx⟩
      | some b =>
        cases hrest : chainAddrs h (some b) fuel with
        | none => simp [hget, hnx, hrest] at hch
        | some rest =>
          simp only [hget, hnx, hrest, Option.some.injEq] at hch
          subst hch
          rcases ih b rest hrest with ⟨L, ndL, h1, h2, h3, h4⟩
          refine ⟨L, ndL, by simp only [lastNode, hget, hnx]; exact h1, ?_, h3, h4⟩
          rcases chainAddrs_some_cons hrest with ⟨tl, rfl⟩
          rw [List.getLast?_cons_cons]
          exact h2

/-- Appending a fresh node after the last node of a chain extends the
traversal by exactly that node. -/
theorem chainAddrs_snoc {h h' : Heap} {n L : Nat} {ndn ndL : node_t}
    (hL : getNode h L = some ndL) (hLnext : ndL.next = none)
    (hLnew : getNode h' L = some { ndL with next := some n })
    (hn : getNode h' n = some ndn) (hnnext : ndn.next = none) :
    ∀ (fuel : Nat) (p : Nat) (as : List Nat),
      chainAddrs h (some p) fuel = some as →
      as.getLast? = some L →
      n ∉ as →
      (∀ a ∈ as, a ≠ L → getNode h' a = getNode h a) →
      chainAddrs h' (some p) (fuel + 1) = some (as ++ [n]) := by
  intro fuel
  induction fuel with
  | zero => intro p as hch; exact absurd hch (by simp [chainAddrs])
  | succ fuel ih =>
    intro p as hch hlast hfresh hag
    rw [chainAddrs] at hch
    cases hget : getNode h p with
    | none => simp [hget] at hch
    | some nd =>
      cases hnx : nd.next with
      | none =>
        simp only [hget, hnx, chainAddrs, Option.some.injEq] at hch
        subst hch
        simp only [List.getLast?_singleton, Option.some.injEq] at hlast
        subst hlast
        have hndL : nd = ndL := by
          rw [hget] at hL
          exact Option.some.injEq _ _ ▸ hL
        subst hndL
        simp [chainAddrs, hLnew, hn, hnnext]
      | some b =>
        cases hrest : chainAddrs h (some b) fuel with
        | none => simp [hget, hnx, hrest] at hch
        | some rest =>
          simp only [hget, hnx, hrest, Option.some.injEq] at hch
          subst hch
          rcases chainAddrs_some_cons hrest with ⟨tl, rfl⟩
          have hpL : p ≠ L := by
            intro heq
            subst heq
            rw [hget] at hL
            cases hL
            rw [hLnext] at hnx
            exact Option.noConfusion hnx
          have hgp : getNode h' p = some nd := by
            rw [hag p (List.mem_cons_self _ _) hpL, hget]
          have hihres := ih b (b :: tl) hrest
            (by rw [List.getLast?_cons_cons] at hlast; exact hlast)
            (fun hmem => hfresh (List.mem_cons_of_mem _ hmem))
            (fun a ha hane => hag a (List.mem_cons_of_mem _ ha) hane)
          rw [chainAddrs, hgp]
          simp only [hnx, hihres]
          rfl

/-- Claim C7.  Over a chain of `k` nodes, `apply` terminates and is
exactly the fold of the visitor over the chain's `k` addresses in
head-to-tail order: the visitor is invoked exactly once per node, with
that node and the context accumulated so far, and nothing can stop the
fold early. -/
theorem apply_foldl {α : Type} {h : Heap} (fn : Nat → α → α) :
    ∀ (fuel : Nat) (list : Option Nat) (as : List Nat) (arg : α),
      chainAddrs h list fuel = some as →
      apply h fn list arg fuel = some (as.foldl (fun acc a => fn a acc) arg) := by
  intro fuel
  induction fuel with
  | zero =>
    intro list as arg hch
    cases list with
    | none =>
      simp only [chainAddrs, Option.some.injEq] at hch
      subst hch
      simp [apply]
    | some a => exact absurd hch (by simp [chainAddrs])
  | succ fuel ih =>
    intro list as arg hch
    cases list with
    | none =>
      simp only [chainAddrs, Option.some.injEq] at hch
      subst hch
      simp [apply]
    | some a =>
      rw [chainAddrs] at hch
      cases hget : getNode h a with
      | none => simp [hget] at hch
      | some nd =>
        cases hrest : chainAddrs h nd.next fuel with
        | none => simp [hget, hrest] at hch
        | some rest =>
          simp only [hget, hrest, Option.some.injEq] at hch
          subst hch
          rw [apply, hget]
          simp only [List.foldl_cons]
          exact ih nd.next rest (fn a arg) hrest

/-! ## The claims -/

/-- Claim C1, counterexample.  The insertion sequence with comparators
5, 3, 8, 3 and titles "B" and "A" on the two comparator-3 nodes produces
a chain whose equal-comparator run is ordered "B" before "A": the claimed
invariant "comparator descending, then title ascending within equal
comparator" is violated by the chain `add_inorder` actually builds. -/
theorem c1_title_ascending_fails :
    buildList [⟨"w", "T1", 5⟩, ⟨"x", "B", 3⟩, ⟨"y", "T3", 8⟩, ⟨"z", "A", 3⟩] =
      some [⟨"y", "T3", 8⟩, ⟨"w", "T1", 5⟩, ⟨"x", "B", 3⟩, ⟨"z", "A", 3⟩] ∧
    ¬ specOrderedAsc
      [⟨"y", "T3", 8⟩, ⟨"w", "T1", 5⟩, ⟨"x", "B", 3⟩, ⟨"z", "A", 3⟩] := by
  constructor
  · decide
  · decide

/-- Claim C1 (amended).  For every sequence of `add_inorder` insertions
starting from the empty list that completes (no null-dereference fault),
the resulting chain, read head to tail, is sorted by `comparator`
descending.  The tie-break clause of the claim is dropped: equal-comparator
runs are not ordered by title ascending (the general branch keeps them
descending by title and the single-node branch orders by artist). -/
theorem buildList_sorted_comparator {songs l : List Song}
    (h : buildList songs = some l) : sortedComparatorDesc l :=
  buildList_aux_sortedComp songs [] l List.Pairwise.nil h

theorem buildList_sorted_comparator_witness :
    sortedComparatorDesc
      [⟨"y", "T3", 8⟩, ⟨"w", "T1", 5⟩, ⟨"x", "B", 3⟩, ⟨"z", "A", 3⟩] :=
  @buildList_sorted_comparator
    [⟨"w", "T1", 5⟩, ⟨"x", "B", 3⟩, ⟨"y", "T3", 8⟩, ⟨"z", "A", 3⟩]
    [⟨"y", "T3", 8⟩, ⟨"w", "T1", 5⟩, ⟨"x", "B", 3⟩, ⟨"z", "A", 3⟩]
    (by decide)

/-- Claim C2.  The claim (and the spec) require every scan to be bounded
by running out of nodes; the head-equal-comparator loop of `add_inorder`
is bounded only by the equality-and-title sub-condition and dereferences
`cur` after walking off the tail.  Concretely: inserting comparator-1
titles "C" then "B" (a list reachable from empty), then inserting a
comparator-1 node titled "A", makes that loop walk past the tail and
dereference NULL — the embedding returns `none` instead of a chain
containing the new node. -/
theorem add_inorder_null_deref :
    add_inorder [⟨"a", "C", 1⟩, ⟨"b", "B", 1⟩] ⟨"c", "A", 1⟩ = none ∧
    buildList [⟨"a", "C", 1⟩, ⟨"b", "B", 1⟩, ⟨"c", "A", 1⟩] = none := by
  constructor
  · decide
  · decide

/-- Claim C3, counterexample.  With comparators 5, 3, 8, 3 inserted in
that order (titles "B" and "A" on the comparator-3 nodes), the final
chain is not the claimed [8, 5, "A"(3), "B"(3)]. -/
theorem c3_expected_order_fails :
    buildList [⟨"w", "T1", 5⟩, ⟨"x", "B", 3⟩, ⟨"y", "T3", 8⟩, ⟨"z", "A", 3⟩] ≠
      some [⟨"y", "T3", 8⟩, ⟨"w", "T1", 5⟩, ⟨"z", "A", 3⟩, ⟨"x", "B", 3⟩] := by
  decide

/-- Claim C3 (amended).  Inserting nodes with comparators 5, 3, 8, 3 in
that order, the two comparator-3 nodes titled "B" and "A" respectively
(artists and the other titles arbitrary), yields the traversal order
comparator 8, comparator 5, comparator 3 titled "B", comparator 3 titled
"A" — the equal-comparator run comes out title-descending, not
ascending. -/
theorem c3_actual_order (a1 a2 a3 a4 t1 t3 : String) :
    buildList [⟨a1, t1, 5⟩, ⟨a2, "B", 3⟩, ⟨a3, t3, 8⟩, ⟨a4, "A", 3⟩] =
      some [⟨a3, t3, 8⟩, ⟨a1, t1, 5⟩, ⟨a2, "B", 3⟩, ⟨a4, "A", 3⟩] := rfl

/-- Claim C4, counterexample.  A new node whose comparator equals every
existing node's comparator is not inserted at the title-ascending
position: with the single existing node titled "A" (artist "b") and the
new node titled "B" (artist "a"), the result runs "B" before "A" and
violates the descending-comparator/ascending-title order. -/
theorem c4_ascending_insert_fails :
    (∀ x ∈ [(⟨"b", "A", 1⟩ : Song)],
      x.comparator = (⟨"a", "B", 1⟩ : Song).comparator) ∧
    add_inorder [⟨"b", "A", 1⟩] ⟨"a", "B", 1⟩ =
      some [⟨"a", "B", 1⟩, ⟨"b", "A", 1⟩] ∧
    ¬ specOrderedAsc [⟨"a", "B", 1⟩, ⟨"b", "A", 1⟩] := by
  refine ⟨by decide, by decide, by decide⟩

theorem add_inorder_equal_comp_titleDesc_witness :
    sortedTitleDesc [⟨"a", "C", 1⟩, ⟨"c", "B", 1⟩, ⟨"b", "B", 1⟩] ∧
    ∃ l₁ l₂, [(⟨"a", "C", 1⟩ : Song), ⟨"b", "B", 1⟩] = l₁ ++ l₂ ∧
      [(⟨"a", "C", 1⟩ : Song), ⟨"c", "B", 1⟩, ⟨"b", "B", 1⟩] =
        l₁ ++ (⟨"c", "B", 1⟩ : Song) :: l₂ :=
  @add_inorder_equal_comp_titleDesc
    [⟨"a", "C", 1⟩, ⟨"b", "B", 1⟩]
    [⟨"a", "C", 1⟩, ⟨"c", "B", 1⟩, ⟨"b", "B", 1⟩]
    ⟨"c", "B", 1⟩
    (by decide) (by decide) (by decide) (by decide)

/-- Claim C5.  On a single-node list with equal comparators the tie is
broken by the artist field: when the existing node's artist compares
lexicographically less than the new node's artist the existing node stays
first with the new node appended after it, and otherwise the new node
becomes the head. -/
theorem add_inorder_singleton_artist_tiebreak {l n : Song}
    (hc : l.comparator = n.comparator) :
    add_inorder [l] n =
      some (if strcmp l.artist n.artist < 0 then [l, n] else [n, l]) := by
  rw [add_inorder, if_neg (by omega), if_neg (by omega)]
  by_cases ha : strcmp l.artist n.artist < 0
  · rw [if_pos ha, if_pos ha]
  · rw [if_neg ha, if_neg ha]

theorem add_inorder_singleton_artist_tiebreak_witness :
    add_inorder [⟨"a", "T", 1⟩] ⟨"b", "U", 1⟩ =
      some (if strcmp (Song.mk "a" "T" 1).artist (Song.mk "b" "U" 1).artist < 0
        then [⟨"a", "T", 1⟩, ⟨"b", "U", 1⟩]
        else [⟨"b", "U", 1⟩, ⟨"a", "T", 1⟩]) :=
  add_inorder_singleton_artist_tiebreak (by decide)

/-- Claim C6.  On a non-empty list with head `p`, pushing a fresh node `n`
with `add_front` and then calling `remove_front` returns exactly the
original head reference `p`, and every node of the original chain — its
order and `next` links — is untouched: `add_front` wrote only through the
fresh node. -/
theorem add_front_remove_front_roundtrip {h : Heap} {p n : Nat} {nd : node_t}
    {fuel : Nat} {as : List Nat}
    (hch : chainAddrs h (some p) fuel = some as)
    (hn : getNode h n = some nd)
    (hfresh : n ∉ as) :
    ∃ h', add_front h (some p) n = some (h', n) ∧
      remove_front h' (some n) = some (h', some p) ∧
      chainAddrs h' (some p) fuel = some as ∧
      ∀ a ∈ as, getNode h' a = getNode h a := by
  have hframe : ∀ a ∈ as,
      getNode (List.set h n { nd with next := some p }) a = getNode h a := by
    intro a ha
    exact getNode_set_other fun heq => hfresh (by rw [heq]; exact ha)
  refine ⟨List.set h n { nd with next := some p }, ?_, ?_, ?_, hframe⟩
  · simp [add_front, setNext_eq_some (some p) hn]
  · simp [remove_front, getNode_set_self { nd with next := some p } hn]
  · exact chainAddrs_frame fuel (some p) as hch hframe

theorem add_front_remove_front_roundtrip_witness :
    ∃ h', add_front [⟨⟨"a", "A", 1⟩, none⟩, ⟨⟨"b", "B", 2⟩, none⟩]
        (some 0) 1 = some (h', 1) ∧
      remove_front h' (some 1) = some (h', some 0) ∧
      chainAddrs h' (some 0) 1 = some [0] ∧
      ∀ a ∈ [0], getNode h' a =
        getNode [⟨⟨"a", "A", 1⟩, none⟩, ⟨⟨"b", "B", 2⟩, none⟩] a :=
  @add_front_remove_front_roundtrip
    [⟨⟨"a", "A", 1⟩, none⟩, ⟨⟨"b", "B", 2⟩, none⟩] 0 1
    ⟨⟨"b", "B", 2⟩, none⟩ 1 [0]
    (by decide) (by decide) (by decide)

theorem apply_foldl_witness :
    apply [⟨⟨"a", "A", 1⟩, some 1⟩, ⟨⟨"b", "B", 2⟩, none⟩]
      (fun a acc => acc ++ [a]) (some 0) ([] : List Nat) 2 =
    some (List.foldl (fun acc a => acc ++ [a]) [] [0, 1]) :=
  apply_foldl (h := [⟨⟨"a", "A", 1⟩, some 1⟩, ⟨⟨"b", "B", 2⟩, none⟩])
    (fun a acc => acc ++ [a]) 2 (some 0) [0, 1] [] (by decide)

/-- Claim C8.  `add_end` returns the original head on a non-empty list and
the new node on an empty one; in both cases the fresh node `n` ends up as
the last node of the chain — the traversal becomes the old traversal with
`n` appended — and `n`'s `next` link is set to NULL. -/
theorem add_end_appends_last {h : Heap} {list : Option Nat} {n : Nat}
    {ndn : node_t} {fuel : Nat} {as : List Nat}
    (hch : chainAddrs h list fuel = some as)
    (hn : getNode h n = some ndn)
    (hfresh : n ∉ as) :
    ∃ h', add_end h list n fuel = some (h', list.getD n) ∧
      getNode h' n = some { ndn with next := none } ∧
      chainAddrs h' (some (list.getD n)) (fuel + 1) = some (as ++ [n]) := by
  cases list with
  | none =>
    have has : as = [] := by
      simpa [chainAddrs] using hch.symm
    subst has
    refine ⟨List.set h n { ndn with next := none }, ?_, ?_, ?_⟩
    · simp [add_end, setNext_eq_some none hn]
    · exact getNode_set_self { ndn with next := none } hn
    · simp [chainAddrs,
        getNode_set_self { ndn with next := none } hn]
  | some hd =>
    rcases lastNode_spec fuel hd as hch with ⟨L, ndL, hlastN, hlast, hL, hLnext⟩
    have hLmem : L ∈ as := List.mem_of_getLast?_eq_some hlast
    have hnL : n ≠ L := fun heq => hfresh (by rw [heq]; exact hLmem)
    have hget1 : getNode (List.set h L { ndL with next := some n }) n =
        some ndn := by
      rw [getNode_set_other fun heq => hnL heq.symm]
      exact hn
    refine ⟨List.set (List.set h L { ndL with next := some n }) n
      { ndn with next := none }, ?_, ?_, ?_⟩
    · simp [add_end, hlastN, setNext_eq_some (some n) hL,
        setNext_eq_some none hget1]
    · exact getNode_set_self { ndn with next := none } hget1
    · have hLnew : getNode (List.set (List.set h L { ndL with next := some n })
          n { ndn with next := none }) L =
          some { ndL with next := some n } := by
        rw [getNode_set_other hnL]
        exact getNode_set_self { ndL with next := some n } hL
      have hframe : ∀ a ∈ as, a ≠ L →
          getNode (List.set (List.set h L { ndL with next := some n })
            n { ndn with next := none }) a = getNode h a := by
        intro a ha haL
        rw [getNode_set_other fun heq => hfresh (by rw [heq]; exact ha),
          getNode_set_other fun heq => haL heq.symm]
      simpa using chainAddrs_snoc hL hLnext hLnew
        (getNode_set_self { ndn with next := none } hget1) rfl fuel hd as hch hlast hfresh hframe

theorem add_end_appends_last_witness :
    ∃ h', add_end [⟨⟨"a", "A", 1⟩, none⟩, ⟨⟨"b", "B", 2⟩, none⟩]
        (some 0) 1 1 = some (h', 0) ∧
      getNode h' 1 = some ⟨⟨"b", "B", 2⟩, none⟩ ∧
      chainAddrs h' (some 0) 2 = some [0, 1] :=
  @add_end_appends_last
    [⟨⟨"a", "A", 1⟩, none⟩, ⟨⟨"b", "B", 2⟩, none⟩] (some 0) 1
    ⟨⟨"b", "B", 2⟩, none⟩ 1 [0]
    (by decide) (by decide) (by decide)

/-- Claim C9.  `remove_front` returns the second node as the new head —
NULL when the list was empty or had a single node — and performs no write
at all: the heap it hands back is the input heap, so neither the removed
node nor its song is freed or changed.  `peek_front` reads nothing and
writes nothing: calling it twice yields the same node and the same heap,
every `next` link unchanged. -/
theorem remove_front_peek_front_frame {h : Heap} {a : Nat} {nd : node_t}
    (hget : getNode h a = some nd) :
    remove_front h none = some (h, none) ∧
    remove_front h (some a) = some (h, nd.next) ∧
    (nd.next = none → remove_front h (some a) = some (h, none)) ∧
    peek_front h (some a) = (h, some a) ∧
    peek_front (peek_front h (some a)).1 (peek_front h (some a)).2 =
      (h, some a) := by
  refine ⟨rfl, ?_, ?_, rfl, rfl⟩
  · simp [remove_front, hget]
  · intro h0
    simp [remove_front, hget, h0]

theorem remove_front_peek_front_frame_witness :
    remove_front [(⟨⟨"a", "A", 1⟩, some 1⟩ : node_t),
        ⟨⟨"b", "B", 2⟩, none⟩] none =
      some ([⟨⟨"a", "A", 1⟩, some 1⟩, ⟨⟨"b", "B", 2⟩, none⟩], none) ∧
    remove_front [(⟨⟨"a", "A", 1⟩, some 1⟩ : node_t),
        ⟨⟨"b", "B", 2⟩, none⟩] (some 0) =
      some ([⟨⟨"a", "A", 1⟩, some 1⟩, ⟨⟨"b", "B", 2⟩, none⟩], some 1) ∧
    ((⟨⟨"a", "A", 1⟩, some 1⟩ : node_t).next = none →
      remove_front [(⟨⟨"a", "A", 1⟩, some 1⟩ : node_t),
          ⟨⟨"b", "B", 2⟩, none⟩] (some 0) =
        some ([⟨⟨"a", "A", 1⟩, some 1⟩, ⟨⟨"b", "B", 2⟩, none⟩], none)) ∧
    peek_front [(⟨⟨"a", "A", 1⟩, some 1⟩ : node_t),
        ⟨⟨"b", "B", 2⟩, none⟩] (some 0) =
      ([⟨⟨"a", "A", 1⟩, some 1⟩, ⟨⟨"b", "B", 2⟩, none⟩], some 0) ∧
    peek_front (peek_front [(⟨⟨"a", "A", 1⟩, some 1⟩ : node_t),
        ⟨⟨"b", "B", 2⟩, none⟩] (some 0)).1
      (peek_front [(⟨⟨"a", "A", 1⟩, some 1⟩ : node_t),
        ⟨⟨"b", "B", 2⟩, none⟩] (some 0)).2 =
      ([⟨⟨"a", "A", 1⟩, some 1⟩, ⟨⟨"b", "B", 2⟩, none⟩], some 0) :=
  @remove_front_peek_front_frame
    [⟨⟨"a", "A", 1⟩, some 1⟩, ⟨⟨"b", "B", 2⟩, none⟩] 0
    ⟨⟨"a", "A", 1⟩, some 1⟩ (by decide)

/-- Claim C10.  On a non-empty list, `remove_front` does not sever the
detached head: no write happens (the heap comes back unchanged), so the
former head still reads as the same node, and its untouched `next` link
is exactly the returned new head — the caller-owned detached node keeps
aliasing the remaining chain. -/
theorem remove_front_no_sever {h : Heap} {a : Nat} {nd : node_t}
    (hget : getNode h a = some nd) :
    remove_front h (some a) = some (h, nd.next) ∧ getNode h a = some nd := by
  constructor
  · simp [remove_front, hget]
  · exact hget

theorem remove_front_no_sever_witness :
    remove_front [(⟨⟨"c", "C", 3⟩, some 1⟩ : node_t),
        ⟨⟨"d", "D", 4⟩, none⟩] (some 0) =
      some ([⟨⟨"c", "C", 3⟩, some 1⟩, ⟨⟨"d", "D", 4⟩, none⟩], some 1) ∧
    getNode [(⟨⟨"c", "C", 3⟩, some 1⟩ : node_t),
        ⟨⟨"d", "D", 4⟩, none⟩] 0 = some ⟨⟨"c", "C", 3⟩, some 1⟩ :=
  @remove_front_no_sever
    [⟨⟨"c", "C", 3⟩, some 1⟩, ⟨⟨"d", "D", 4⟩, none⟩] 0
    ⟨⟨"c", "C", 3⟩, some 1⟩ (by decide)
